import Mathlib

/-!
# Verification of the wordle solver's constraint model and filtering

Shallow embedding of the Go sources.  The repository holds two variants of the
program in `wordle.go` (a position-aware one, modelled at top level here, and a
simpler multiplicity-ignoring one, modelled in namespace `V2`) plus a third
variant in an unnamed file whose constraint model, `applyDiffConstraint`,
`satisfies` and `filter` are character-for-character identical to the second
variant, so the `V2` namespace covers both.

Modelling choices, each noted at the definition it concerns:
* Go byte strings of length five are modelled as functions `Fin 5 → Char`;
  the sources only ever handle five-letter lowercase ASCII words.
* The `[5][26]bool` array `notPosition`, indexed by `letter - 'a'`, is
  modelled as its characteristic function `Fin 5 → Char → Bool`.
* Go's `float64` accumulator in `expectedNextSetSize` is modelled by exact
  rational arithmetic (`ℚ`); the algorithmic content (the incremental mean)
  is unchanged.
* `sort.Slice` is an unstable comparison sort: any output sequence sorted
  with respect to the comparator is a valid outcome.  It is modelled by
  `List.insertionSort`, which produces one such outcome.
* In-place slice mutation (`filter`, `sortWords`) is modelled by returning
  the resulting sequence.
-/

set_option maxRecDepth 8000

/-- Go's zero `byte`, the sentinel for "no fixed letter" in `constraints.position`. -/
def nulByte : Char := Char.ofNat 0

/-- The character is a lowercase ASCII letter, `'a'` through `'z'`. -/
def lowerChar (c : Char) : Prop := 'a' ≤ c ∧ c ≤ 'z'

instance (c : Char) : Decidable (lowerChar c) := by
  unfold lowerChar; infer_instance

/-- A lowercase letter is not the NUL sentinel. -/
theorem lowerChar_ne_nulByte {c : Char} (h : lowerChar c) : c ≠ nulByte := by
  rintro rfl
  exact absurd h.1 (by decide)

/-- The Go `word` struct: the five-letter text, its corpus frequency, and the
two per-ranking-pass fields `score` (heuristic score) and `exp` (expected
next-set size, a `float64` modelled as `ℚ`). -/
structure Word where
  word : Fin 5 → Char
  freq : ℤ
  score : ℕ
  exp : ℚ

/-- Build a five-letter word from a string literal (helper for concrete inputs). -/
def str5 (s : String) : Fin 5 → Char := fun i => s.toList.getD i.val 'a'

/-- The position-aware variant's `constraints` struct:
`position` is the `[5]byte` of fixed letters (NUL = unset), `notPosition`
models the `[5][26]bool` exclusion table as a characteristic function, and
`contains` is the byte slice of letters known to be present. -/
structure constraints where
  position : Fin 5 → Char
  notPosition : Fin 5 → Char → Bool
  contains : List Char

/-- `newConstraints`: the empty model. -/
def newConstraints : constraints :=
  { position := fun _ => nulByte, notPosition := fun _ _ => false, contains := [] }

/-- `clearConstraints` resets every field of the reused scratch model, leaving
exactly the empty model. -/
def clearConstraints (_c : constraints) : constraints := newConstraints

/-- `satisfies` from the position-aware variant: each position must match its
fixed letter if set, otherwise must avoid the letters excluded there; and each
letter of `contains` must occur at some non-fixed position. -/
def satisfies (c : constraints) (w : Fin 5 → Char) : Bool :=
  ((List.finRange 5).all fun i =>
    if c.position i ≠ nulByte then decide (w i = c.position i)
    else !(c.notPosition i (w i))) &&
  (c.contains.all fun b =>
    (List.finRange 5).any fun i =>
      decide (c.position i = nulByte) && decide (w i = b))

/-- `filter` keeps, in order, the words that satisfy the constraints.  The Go
code compacts the slice in place; the returned prefix equals the stable
filtering of the input. -/
def filter (c : constraints) (words : List Word) : List Word :=
  words.filter fun w => satisfies c w.word

/-- The `found` test inside `applyDiffConstraint`'s second loop: some
non-fixed answer position holds the guessed letter. -/
def diffFound (c : constraints) (answer : Fin 5 → Char) (g : Char) : Bool :=
  (List.finRange 5).any fun j =>
    decide (c.position j = nulByte) && decide (answer j = g)

/-- One iteration of `applyDiffConstraint`'s second loop at guess position
`i`: skip fixed positions; if the guessed letter occurs at some non-fixed
answer position, exclude it at `i` and append it to `contains`; otherwise
exclude it at every non-fixed position. -/
def diffStep (guess answer : Fin 5 → Char) (c : constraints) (i : Fin 5) :
    constraints :=
  if c.position i = nulByte then
    if diffFound c answer (guess i) then
      { c with
        notPosition := fun j b =>
          c.notPosition j b || (decide (j = i) && decide (b = guess i)),
        contains := c.contains ++ [guess i] }
    else
      { c with
        notPosition := fun j b =>
          c.notPosition j b ||
            (decide (c.position j = nulByte) && decide (b = guess i)) }
  else c

/-- The position-aware `applyDiffConstraint`: first record every exact match
in `position`, then run the second loop over all five guess positions. -/
def applyDiffConstraint (c : constraints) (guess answer : Fin 5 → Char) :
    constraints :=
  let c1 : constraints :=
    { c with position := fun i => if guess i = answer i then guess i else c.position i }
  (List.finRange 5).foldl (diffStep guess answer) c1

example :
    (applyDiffConstraint newConstraints (str5 "sassy") (str5 "glass")).contains
      = ['s', 'a', 's'] := by decide

example :
    satisfies (applyDiffConstraint newConstraints (str5 "sassy") (str5 "glass"))
      (str5 "glass") = true := by decide

/-! ## Characterising the second loop of `applyDiffConstraint`

The second loop never writes `position`, and its `found` test reads only
`position`, so the loop's iterations are independent; the next lemmas record
this and bound what the loop can add to `notPosition` and `contains`. -/

theorem diffStep_position (guess answer : Fin 5 → Char) (c : constraints)
    (i : Fin 5) : (diffStep guess answer c i).position = c.position := by
  unfold diffStep
  split
  · split <;> rfl
  · rfl

theorem foldl_diffStep_position (guess answer : Fin 5 → Char) :
    ∀ (L : List (Fin 5)) (c : constraints),
      (L.foldl (diffStep guess answer) c).position = c.position := by
  intro L
  induction L with
  | nil => intro c; rfl
  | cons i L ih =>
      intro c
      rw [List.foldl_cons, ih, diffStep_position]

theorem diffFound_congr {c c' : constraints} (answer : Fin 5 → Char)
    (g : Char) (h : c'.position = c.position) :
    diffFound c' answer g = diffFound c answer g := by
  unfold diffFound
  rw [h]

theorem foldl_diffStep_contains_mem (guess answer : Fin 5 → Char) :
    ∀ (L : List (Fin 5)) (c : constraints) (b : Char),
      b ∈ (L.foldl (diffStep guess answer) c).contains →
      b ∈ c.contains ∨
        ∃ i ∈ L, c.position i = nulByte ∧
          diffFound c answer (guess i) = true ∧ b = guess i := by
  intro L
  induction L with
  | nil => intro c b hb; exact Or.inl hb
  | cons i L ih =>
      intro c b hb
      rw [List.foldl_cons] at hb
      rcases ih (diffStep guess answer c i) b hb with h | ⟨i', hi', hnul, hfound, hbi⟩
      · unfold diffStep at h
        split at h
        · rename_i hci
          split at h
          · rename_i hf
            rcases List.mem_append.mp h with h' | h'
            · exact Or.inl h'
            · exact Or.inr ⟨i, List.mem_cons_self i L, hci, hf,
                List.mem_singleton.mp h'⟩
          · exact Or.inl h
        · exact Or.inl h
      · rw [diffStep_position] at hnul
        rw [diffFound_congr answer (guess i') (diffStep_position guess answer c i)] at hfound
        exact Or.inr ⟨i', List.mem_cons_of_mem i hi', hnul, hfound, hbi⟩

theorem foldl_diffStep_notPosition (guess answer : Fin 5 → Char) :
    ∀ (L : List (Fin 5)) (c : constraints) (j : Fin 5) (b : Char),
      (L.foldl (diffStep guess answer) c).notPosition j b = true →
      c.notPosition j b = true ∨
        ∃ i ∈ L, c.position i = nulByte ∧ b = guess i ∧
          ((diffFound c answer (guess i) = true ∧ j = i) ∨
           (diffFound c answer (guess i) = false ∧ c.position j = nulByte)) := by
  intro L
  induction L with
  | nil => intro c j b hb; exact Or.inl hb
  | cons i L ih =>
      intro c j b hb
      rw [List.foldl_cons] at hb
      rcases ih (diffStep guess answer c i) j b hb with h | ⟨i', hi', hnul, hbi, hrest⟩
      · unfold diffStep at h
        split at h
        · rename_i hci
          split at h
          · rename_i hf
            rw [Bool.or_eq_true] at h
            rcases h with h' | h'
            · exact Or.inl h'
            · rw [Bool.and_eq_true] at h'
              exact Or.inr ⟨i, List.mem_cons_self i L, hci, of_decide_eq_true h'.2,
                Or.inl ⟨hf, of_decide_eq_true h'.1⟩⟩
          · rename_i hf
            rw [Bool.or_eq_true] at h
            rcases h with h' | h'
            · exact Or.inl h'
            · rw [Bool.and_eq_true] at h'
              exact Or.inr ⟨i, List.mem_cons_self i L, hci, of_decide_eq_true h'.2,
                Or.inr ⟨Bool.eq_false_iff.mpr hf, of_decide_eq_true h'.1⟩⟩
        · exact Or.inl h
      · rw [diffStep_position] at hnul
        rw [diffFound_congr answer (guess i') (diffStep_position guess answer c i)] at hrest
        rw [diffStep_position] at hrest
        exact Or.inr ⟨i', List.mem_cons_of_mem i hi', hnul, hbi, hrest⟩

/-- A word satisfies the constraints exactly when every fixed position holds
its fixed letter, no non-fixed position holds a letter excluded there, and
every `contains` letter occurs at some non-fixed position. -/
theorem satisfies_iff (c : constraints) (w : Fin 5 → Char) :
    satisfies c w = true ↔
      ((∀ i, c.position i ≠ nulByte → w i = c.position i) ∧
       (∀ i, c.position i = nulByte → c.notPosition i (w i) = false) ∧
       (∀ b ∈ c.contains, ∃ i, c.position i = nulByte ∧ w i = b)) := by
  unfold satisfies
  rw [Bool.and_eq_true, List.all_eq_true, List.all_eq_true]
  constructor
  · rintro ⟨h1, h2⟩
    refine ⟨?_, ?_, ?_⟩
    · intro i hi
      have h := h1 i (List.mem_finRange i)
      rw [if_pos hi] at h
      exact of_decide_eq_true h
    · intro i hi
      have h := h1 i (List.mem_finRange i)
      rw [if_neg (fun hne => hne hi)] at h
      rw [Bool.not_eq_true'] at h
      exact h
    · intro b hb
      have h := h2 b hb
      rw [List.any_eq_true] at h
      rcases h with ⟨i, _, hi⟩
      rw [Bool.and_eq_true] at hi
      exact ⟨i, of_decide_eq_true hi.1, of_decide_eq_true hi.2⟩
  · rintro ⟨h1, h2, h3⟩
    constructor
    · intro i _
      by_cases hi : c.position i = nulByte
      · rw [if_neg (fun hne => hne hi), Bool.not_eq_true']
        exact h2 i hi
      · rw [if_pos hi]
        exact decide_eq_true (h1 i hi)
    · intro b hb
      rw [List.any_eq_true]
      rcases h3 b hb with ⟨i, hnul, hw⟩
      refine ⟨i, List.mem_finRange i, ?_⟩
      rw [Bool.and_eq_true]
      exact ⟨decide_eq_true hnul, decide_eq_true hw⟩

/-- Core soundness of the diff: the answer itself always satisfies the
constraints produced by diffing any lowercase guess against it on a fresh
model. -/
theorem satisfies_diff_self (guess answer : Fin 5 → Char)
    (hg : ∀ i, lowerChar (guess i)) :
    satisfies (applyDiffConstraint newConstraints guess answer) answer = true := by
  have hunf : applyDiffConstraint newConstraints guess answer
      = (List.finRange 5).foldl (diffStep guess answer)
          { newConstraints with
            position := fun i => if guess i = answer i then guess i else nulByte } := rfl
  rw [hunf, satisfies_iff]
  have hpos : ((List.finRange 5).foldl (diffStep guess answer)
      { newConstraints with
        position := fun i =>
          if guess i = answer i then guess i else nulByte }).position
      = fun i => if guess i = answer i then guess i else nulByte :=
    foldl_diffStep_position guess answer (List.finRange 5) _
  refine ⟨?_, ?_, ?_⟩
  · intro i hne
    simp only [hpos] at hne ⊢
    by_cases h : guess i = answer i
    · rw [if_pos h]
      exact h.symm
    · rw [if_neg h] at hne
      exact absurd rfl hne
  · intro i hnul
    simp only [hpos] at hnul
    by_contra hset
    have hset' : ((List.finRange 5).foldl (diffStep guess answer)
        { newConstraints with
          position := fun i =>
            if guess i = answer i then guess i else nulByte }).notPosition i
          (answer i) = true := by
      rcases Bool.eq_false_or_eq_true (((List.finRange 5).foldl
          (diffStep guess answer)
          { newConstraints with
            position := fun i =>
              if guess i = answer i then guess i else nulByte }).notPosition i
            (answer i)) with h | h
      · exact h
      · exact absurd h hset
    rcases foldl_diffStep_notPosition guess answer (List.finRange 5) _ i
        (answer i) hset' with h0 | ⟨k, _, hknul, hbk, hcase⟩
    · exact Bool.false_ne_true h0
    · rcases hcase with ⟨_, hji⟩ | ⟨hnotfound, hjnul⟩
      · subst hji
        have hgi : guess i = answer i := hbk.symm
        rw [if_pos hgi] at hnul
        exact lowerChar_ne_nulByte (hg i) hnul
      · have hfound : diffFound
            { newConstraints with
              position := fun i =>
                if guess i = answer i then guess i else nulByte } answer
              (guess k) = true := by
          unfold diffFound
          rw [List.any_eq_true]
          refine ⟨i, List.mem_finRange i, ?_⟩
          rw [Bool.and_eq_true]
          exact ⟨decide_eq_true hjnul, decide_eq_true hbk⟩
        rw [hnotfound] at hfound
        exact Bool.false_ne_true hfound
  · intro b hb
    rcases foldl_diffStep_contains_mem guess answer (List.finRange 5) _ b hb with
      h0 | ⟨k, _, hknul, hfound, hbk⟩
    · exact absurd h0 (List.not_mem_nil b)
    · unfold diffFound at hfound
      rw [List.any_eq_true] at hfound
      rcases hfound with ⟨j, _, hj⟩
      rw [Bool.and_eq_true] at hj
      refine ⟨j, ?_, ?_⟩
      · simp only [hpos]
        exact of_decide_eq_true hj.1
      · rw [hbk]
        exact of_decide_eq_true hj.2

/-- Claim C1: soundness of filtering by own feedback.  For every catalog of
five-lowercase-letter words and every pair of five-lowercase-letter words
`guess`, `answer` with `answer` in the catalog, after building constraints by
diffing `guess` against `answer` on a freshly cleared model and filtering the
catalog, `answer` is still present in the surviving set. -/
theorem claim_C1_filter_soundness (guess answer : Fin 5 → Char)
    (ws : List Word) (r : Word) (c0 : constraints)
    (hg : ∀ i, lowerChar (guess i)) (_ha : ∀ i, lowerChar (answer i))
    (_hws : ∀ w ∈ ws, ∀ i, lowerChar (w.word i))
    (hr : r ∈ ws) (hra : r.word = answer) :
    r ∈ filter (applyDiffConstraint (clearConstraints c0) guess answer) ws := by
  have hclear : clearConstraints c0 = newConstraints := rfl
  rw [hclear, filter, List.mem_filter]
  refine ⟨hr, ?_⟩
  rw [hra]
  exact satisfies_diff_self guess answer hg

/-- Witness for claim C1 at a concrete input: guessing "crane" against the
answer "slate" never eliminates "slate" from a catalog containing it. -/
theorem claim_C1_filter_soundness_witness :
    (⟨str5 "slate", 1, 0, 0⟩ : Word) ∈
      filter (applyDiffConstraint (clearConstraints newConstraints)
          (str5 "crane") (str5 "slate"))
        [⟨str5 "house", 2, 0, 0⟩, ⟨str5 "slate", 1, 0, 0⟩] :=
  claim_C1_filter_soundness (str5 "crane") (str5 "slate") _ _ _
    (by decide) (by decide) (by decide)
    (by simp) rfl

/-! ## Claim C4: filter characterisation against the spec's consistency rules -/

/-- Modelled from the spec (§3): the abstract Constraint Model with its four
fields `fixedPosition`, `excludedAtPosition`, `mustContain`, `mustNotContain`. -/
structure SpecModel where
  fixedPosition : Fin 5 → Option Char
  excludedAtPosition : Fin 5 → Char → Bool
  mustContain : List Char
  mustNotContain : List Char

/-- View of the position-aware variant's `constraints` as the spec's abstract
model: the NUL sentinel becomes `none`, and `mustNotContain` is empty because
this variant encodes absent letters purely through positional exclusion. -/
def abstractModel (c : constraints) : SpecModel where
  fixedPosition := fun i => if c.position i = nulByte then none else some (c.position i)
  excludedAtPosition := c.notPosition
  mustContain := c.contains
  mustNotContain := []

/-- Modelled from the spec (§4.2): a word `w` is consistent iff every fixed
position matches, no position holds a letter excluded there (unless fixed to
exactly that letter), every `mustContain` letter occurs at a non-fixed
position, and no `mustNotContain` letter occurs anywhere. -/
def consistent (m : SpecModel) (w : Fin 5 → Char) : Bool :=
  ((List.finRange 5).all fun i =>
    match m.fixedPosition i with
    | some ch => decide (w i = ch)
    | none => true) &&
  ((List.finRange 5).all fun i =>
    decide (m.fixedPosition i = some (w i)) || !(m.excludedAtPosition i (w i))) &&
  (m.mustContain.all fun b =>
    (List.finRange 5).any fun i =>
      decide (m.fixedPosition i = none) && decide (w i = b)) &&
  (m.mustNotContain.all fun b =>
    (List.finRange 5).all fun i => !(decide (w i = b)))

/-- The code's `satisfies` agrees with the spec's consistency predicate read
through `abstractModel`. -/
theorem satisfies_eq_consistent (c : constraints) (w : Fin 5 → Char) :
    satisfies c w = consistent (abstractModel c) w := by
  have hiff : satisfies c w = true ↔ consistent (abstractModel c) w = true := by
    rw [satisfies_iff]
    unfold consistent abstractModel
    simp only [Bool.and_eq_true, List.all_eq_true, List.any_eq_true,
      List.all_nil, and_true]
    constructor
    · rintro ⟨h1, h2, h3⟩
      refine ⟨⟨?_, ?_⟩, ?_⟩
      · intro i _
        by_cases hi : c.position i = nulByte
        · simp only [if_pos hi]
        · simp only [if_neg hi]
          exact decide_eq_true (h1 i hi)
      · intro i _
        by_cases hi : c.position i = nulByte
        · rw [Bool.or_eq_true, Bool.not_eq_true']
          exact Or.inr (h2 i hi)
        · simp only [if_neg hi]
          rw [Bool.or_eq_true]
          exact Or.inl (decide_eq_true (by rw [h1 i hi]))
      · intro b hb
        rcases h3 b hb with ⟨i, hnul, hw⟩
        refine ⟨i, List.mem_finRange i, ?_, decide_eq_true hw⟩
        exact decide_eq_true (by rw [if_pos hnul])
    · rintro ⟨⟨h1, h2⟩, h3⟩
      refine ⟨?_, ?_, ?_⟩
      · intro i hi
        have h := h1 i (List.mem_finRange i)
        simp only [if_neg hi] at h
        exact of_decide_eq_true h
      · intro i hi
        have h := h2 i (List.mem_finRange i)
        rw [Bool.or_eq_true, Bool.not_eq_true'] at h
        rcases h with h | h
        · simp only [if_pos hi] at h
          exact absurd (of_decide_eq_true h) (by simp)
        · exact h
      · intro b hb
        rcases h3 b hb with ⟨i, _, hi⟩
        have hnone := of_decide_eq_true hi.1
        refine ⟨i, ?_, of_decide_eq_true hi.2⟩
        by_cases hnul : c.position i = nulByte
        · exact hnul
        · simp only [if_neg hnul] at hnone
          exact absurd hnone (by simp)
  rcases Bool.eq_false_or_eq_true (satisfies c w) with hs | hs
  · rw [hs, hiff.mp hs]
  · rcases Bool.eq_false_or_eq_true (consistent (abstractModel c) w) with hc | hc
    · exact absurd (hiff.mpr hc) (by rw [hs]; exact Bool.false_ne_true)
    · rw [hs, hc]

/-- Claim C4: `filter` returns exactly the input words, in their original
relative order, that are consistent with the model in the spec's sense:
fixed positions match, excluded letters avoided at non-fixed positions, every
`mustContain` letter at a non-fixed position, no `mustNotContain` letter
anywhere (this variant's `mustNotContain` is always empty).  The result is a
sublist of the input, so the filter is stable. -/
theorem claim_C4_filter_characterisation (c : constraints) (ws : List Word) :
    filter c ws = ws.filter (fun w => consistent (abstractModel c) w.word) ∧
    (filter c ws).Sublist ws := by
  constructor
  · unfold filter
    exact List.filter_congr fun w _ => satisfies_eq_consistent c w.word
  · exact List.filter_sublist ws

/-- Claim C6: idempotent re-filtering — filtering an already-filtered catalog
against the same constraint model yields the identical list. -/
theorem claim_C6_filter_idempotent (c : constraints) (ws : List Word) :
    filter c (filter c ws) = filter c ws := by
  unfold filter
  rw [List.filter_filter]
  exact List.filter_congr fun w _ => Bool.and_self _

/-! ## Claim C2: repeated letters in the diff of "sassy" against "glass" -/

/-- Guess position `i` is recorded as contained: its letter is excluded at
position `i` and appended to `contains`. -/
def markedContained (c : constraints) (g : Fin 5 → Char) (i : Fin 5) : Prop :=
  c.notPosition i (g i) = true ∧ g i ∈ c.contains

instance (c : constraints) (g : Fin 5 → Char) (i : Fin 5) :
    Decidable (markedContained c g i) := by
  unfold markedContained; infer_instance

/-- Modelled from the spec (§4.1 step 2): the answer has an occurrence of the
guessed letter that is neither consumed by an exact match nor already claimed
by an earlier non-fixed position of the same letter in the same guess —
stated by counting: strictly fewer earlier non-fixed guess positions carry
this letter than the answer has non-exact-match occurrences of it. -/
def unclaimedOccurrence (g a : Fin 5 → Char) (i : Fin 5) : Prop :=
  ((List.finRange 5).filter fun k =>
      decide (k < i) && decide (g k = g i) && decide (g k ≠ a k)).length <
  ((List.finRange 5).filter fun j =>
      decide (a j = g i) && decide (g j ≠ a j)).length

instance (g a : Fin 5 → Char) (i : Fin 5) :
    Decidable (unclaimedOccurrence g a i) := by
  unfold unclaimedOccurrence; infer_instance

/-- Counterexample to claim C2: diffing "sassy" against "glass", the second
non-fixed 's' (guess position 2) is recorded as contained even though both
's' occurrences of "glass" are consumed by the exact match at position 3 or
claimed by guess position 0 — the code performs no claiming across duplicate
guess positions. -/
theorem claim_C2_counterexample :
    ¬ (∀ i : Fin 5, str5 "sassy" i ≠ str5 "glass" i →
        (markedContained
            (applyDiffConstraint newConstraints (str5 "sassy") (str5 "glass"))
            (str5 "sassy") i ↔
          unclaimedOccurrence (str5 "sassy") (str5 "glass") i)) := by
  decide

/-- Claim C2 as amended: diffing "sassy" against "glass" consumes exact
matches but performs no claiming among duplicate non-fixed guess positions —
a non-fixed guess letter is recorded as contained exactly when the answer
holds it at some non-exact-match position.  Hence 's'@0, 'a'@1 and also
's'@2 are all recorded contained ('s'@2 despite the stricter occurrence
accounting), 's'@3 is fixed, and 'y' is excluded at every non-fixed
position, with `contains = ['s','a','s']`. -/
theorem claim_C2_amended_diff_sassy_glass :
    (∀ i : Fin 5,
      (applyDiffConstraint newConstraints (str5 "sassy") (str5 "glass")).position i
        = if str5 "sassy" i = str5 "glass" i then str5 "sassy" i else nulByte) ∧
    (∀ i : Fin 5, str5 "sassy" i ≠ str5 "glass" i →
      (markedContained
          (applyDiffConstraint newConstraints (str5 "sassy") (str5 "glass"))
          (str5 "sassy") i ↔
        ∃ j : Fin 5, str5 "sassy" j ≠ str5 "glass" j ∧
          str5 "glass" j = str5 "sassy" i)) ∧
    (applyDiffConstraint newConstraints (str5 "sassy") (str5 "glass")).contains
      = ['s', 'a', 's'] ∧
    (∀ j : Fin 5, str5 "sassy" j ≠ str5 "glass" j →
      (applyDiffConstraint newConstraints (str5 "sassy") (str5 "glass")).notPosition
        j 'y' = true) := by
  refine ⟨?_, ?_, ?_, ?_⟩ <;> decide

/-! ## Claim C3: the variants diverge on duplicate letters

Namespace `V2` models the simpler variant from the second half of
`wordle.go`; the third variant (the unnamed source file) has a
character-for-character identical `constraints` struct,
`applyDiffConstraint`, `satisfies` and `filter`, so this embedding covers
both multiplicity-ignoring variants. -/

namespace V2

/-- The simpler variants' `constraints`: per-position exclusion lists plus
global `contains` and `notContains` letter lists. -/
structure constraints where
  position : Fin 5 → Char
  notPosition : Fin 5 → List Char
  contains : List Char
  notContains : List Char

/-- `newConstraints`: the empty model of the simpler variants. -/
def newConstraints : constraints :=
  { position := fun _ => nulByte, notPosition := fun _ => [],
    contains := [], notContains := [] }

/-- One iteration of the simpler `applyDiffConstraint` loop: an exact match
fixes the position; otherwise the letter is excluded at this position and
classified by whether it occurs anywhere in the answer. -/
def diffStep (guess answer : Fin 5 → Char) (c : constraints) (i : Fin 5) :
    constraints :=
  if guess i = answer i then
    { c with position := fun j => if j = i then guess i else c.position j }
  else
    let c' := { c with
      notPosition := fun j =>
        if j = i then c.notPosition j ++ [guess i] else c.notPosition j }
    if (List.finRange 5).any (fun j => decide (answer j = guess i)) then
      { c' with contains := c'.contains ++ [guess i] }
    else
      { c' with notContains := c'.notContains ++ [guess i] }

/-- The simpler `applyDiffConstraint`: a single loop over the five guess
positions; "contained" ignores whether the occurrence is consumed by an
exact match (`strings.ContainsRune` looks at the whole answer). -/
def applyDiffConstraint (c : constraints) (guess answer : Fin 5 → Char) :
    constraints :=
  (List.finRange 5).foldl (diffStep guess answer) c

/-- The simpler variants' `satisfies`: fixed positions must match, excluded
letters avoided per position, `contains` letters must appear anywhere in the
word (fixed positions included), `notContains` letters nowhere. -/
def satisfies (c : constraints) (w : Fin 5 → Char) : Bool :=
  ((List.finRange 5).all fun i =>
    (!(decide (c.position i ≠ nulByte) && decide (w i ≠ c.position i))) &&
    ((c.notPosition i).all fun b => !(decide (w i = b)))) &&
  (c.contains.all fun b => (List.finRange 5).any fun i => decide (w i = b)) &&
  (c.notContains.all fun b =>
    (List.finRange 5).all fun i => !(decide (w i = b)))

/-- The simpler variants' `filter`, identical in form to the position-aware
one. -/
def filter (c : constraints) (words : List Word) : List Word :=
  words.filter fun w => satisfies c w.word

end V2

/-- Claim C3: the near-duplicate diff implementations diverge on duplicate
letters — for the guess "aaxyz" (repeated 'a') against the answer "abcde",
the position-aware variant's constraints and the multiplicity-ignoring
variants' constraints admit different surviving sets on the one-word catalog
["abaab"]: the former rejects it (the unmatched second 'a' excludes 'a' from
every non-fixed position), the latter keeps it. -/
theorem claim_C3_variant_divergence :
    ∃ (guess answer : Fin 5 → Char) (cat : List Word),
      (∃ i j : Fin 5, i ≠ j ∧ guess i = guess j) ∧
      ((filter (applyDiffConstraint newConstraints guess answer) cat).map
          (fun w => w.word)) ≠
        ((V2.filter (V2.applyDiffConstraint V2.newConstraints guess answer)
            cat).map (fun w => w.word)) := by
  refine ⟨str5 "aaxyz", str5 "abcde", [⟨str5 "abaab", 0, 0, 0⟩],
    ⟨0, 1, by decide, by decide⟩, ?_⟩
  decide

/-! ## Claims C5 and C8: parsing feedback lines -/

/-- ASCII whitespace as recognised when splitting fields (Go's
`strings.Fields` splits on `unicode.IsSpace`; the feedback grammar is ASCII,
so the ASCII space characters are modelled). -/
def goIsSpace (c : Char) : Bool :=
  c = ' ' || c = '\t' || c = '\n' || c = '\x0b' || c = '\x0c' || c = '\r'

/-- `strings.Fields`: the maximal runs of non-whitespace characters. -/
def goFields (line : List Char) : List (List Char) :=
  (List.splitOnP goIsSpace line).filter fun f => !f.isEmpty

/-- A feedback field is valid: two characters, an operator `-`, `+` or `~`
followed by a lowercase letter (Go checks `len(field) != 2`, then the
operator and letter ranges). -/
def validField (f : List Char) : Bool :=
  match f with
  | [op, b] =>
      (decide (op = '-') || decide (op = '+') || decide (op = '~')) &&
      decide ('a' ≤ b) && decide (b ≤ 'z')
  | _ => false

/-- First pass of `inputConstraints` over the fields, carrying the field
index: `+` fixes the letter at this position, `~` excludes it here and
appends it to `contains`; `-` is left to the second pass. -/
def plusTildeStep (st : constraints × ℕ) (f : List Char) : constraints × ℕ :=
  match f with
  | [op, b] =>
      if op = '+' then
        ({ st.1 with
            position := fun j => if (j : ℕ) = st.2 then b else st.1.position j },
          st.2 + 1)
      else if op = '~' then
        ({ st.1 with
            notPosition := fun j ch =>
              st.1.notPosition j ch || (decide ((j : ℕ) = st.2) && decide (ch = b)),
            contains := st.1.contains ++ [b] }, st.2 + 1)
      else (st.1, st.2 + 1)
  | _ => (st.1, st.2 + 1)

/-- Second pass of `inputConstraints`: each `-` letter is excluded at every
position not already fixed by a `+`. -/
def minusStep (c : constraints) (f : List Char) : constraints :=
  match f with
  | [op, b] =>
      if op = '-' then
        { c with
            notPosition := fun j ch =>
              c.notPosition j ch ||
                (decide (c.position j = nulByte) && decide (ch = b)) }
      else c
  | _ => c

/-- `inputConstraints` of the position-aware variant: reject the line unless
it has exactly five valid fields, then apply the `+`/`~` pass followed by the
`-` pass.  `nil` is modelled as `none`. -/
def inputConstraints (line : List Char) : Option constraints :=
  let fields := goFields line
  if fields.length ≠ 5 then none
  else if ¬ (fields.all validField = true) then none
  else some (fields.foldl minusStep (fields.foldl plusTildeStep (newConstraints, 0)).1)

/-- Modelled from the spec (§6): a well-formed feedback line is exactly five
whitespace-separated two-character tokens, each an operator `+`, `~` or `-`
followed by one lowercase letter. -/
def wellFormedLine (line : List Char) : Prop :=
  (goFields line).length = 5 ∧
  ∀ f ∈ goFields line, ∃ op b, f = [op, b] ∧
    (op = '-' ∨ op = '+' ∨ op = '~') ∧ 'a' ≤ b ∧ b ≤ 'z'

/-- A single field passes the code's validation exactly when it fits the
spec's token grammar. -/
theorem validField_iff (f : List Char) :
    validField f = true ↔
      ∃ op b, f = [op, b] ∧ (op = '-' ∨ op = '+' ∨ op = '~') ∧
        'a' ≤ b ∧ b ≤ 'z' := by
  match f with
  | [] => simp [validField]
  | [_] => simp [validField]
  | [op, b] =>
      constructor
      · intro h
        unfold validField at h
        rw [Bool.and_eq_true, Bool.and_eq_true, Bool.or_eq_true, Bool.or_eq_true] at h
        refine ⟨op, b, rfl, ?_, of_decide_eq_true h.1.2, of_decide_eq_true h.2⟩
        rcases h.1.1 with (h' | h') | h'
        · exact Or.inl (of_decide_eq_true h')
        · exact Or.inr (Or.inl (of_decide_eq_true h'))
        · exact Or.inr (Or.inr (of_decide_eq_true h'))
      · rintro ⟨op', b', heq, hop, hb1, hb2⟩
        rcases List.cons_eq_cons.mp heq with ⟨rfl, htl⟩
        rcases List.cons_eq_cons.mp htl with ⟨rfl, _⟩
        unfold validField
        rw [Bool.and_eq_true, Bool.and_eq_true, Bool.or_eq_true, Bool.or_eq_true]
        refine ⟨⟨?_, decide_eq_true hb1⟩, decide_eq_true hb2⟩
        rcases hop with h | h | h
        · exact Or.inl (Or.inl (decide_eq_true h))
        · exact Or.inl (Or.inr (decide_eq_true h))
        · exact Or.inr (decide_eq_true h)
  | _ :: _ :: _ :: _ => simp [validField]

/-- Claim C8: `inputConstraints` rejects exactly the malformed lines — it
returns `none` iff the line is not exactly five whitespace-separated
two-character tokens of an operator `+`, `~` or `-` followed by a lowercase
letter; it returns a constraint model for every well-formed line, even a
contradictory one. -/
theorem claim_C8_malformed_rejection (line : List Char) :
    inputConstraints line = none ↔ ¬ wellFormedLine line := by
  unfold inputConstraints wellFormedLine
  by_cases hlen : (goFields line).length = 5
  · simp only [hlen, ne_eq, not_true_eq_false, if_false, not_false_eq_true,
      true_and, if_neg]
    by_cases hval : (goFields line).all validField = true
    · rw [if_neg (by simp [hval])]
      rw [List.all_eq_true] at hval
      constructor
      · intro h
        exact absurd h (by simp)
      · intro h
        exact absurd (fun f hf => (validField_iff f).mp (hval f hf)) h
    · rw [if_pos (by simp [hval])]
      constructor
      · intro _ hforall
        exact hval (List.all_eq_true.mpr fun f hf =>
          (validField_iff f).mpr (hforall f hf))
      · intro _
        rfl
  · rw [if_pos hlen]
    constructor
    · intro _ hwf
      exact hlen hwf.1
    · intro _
      rfl

/-- The five-word catalog of the spec's feedback scenario. -/
def catC5 : List Word :=
  [⟨str5 "alpha", 1, 0, 0⟩, ⟨str5 "allot", 2, 0, 0⟩, ⟨str5 "apple", 3, 0, 0⟩,
   ⟨str5 "adieu", 4, 0, 0⟩, ⟨str5 "amber", 5, 0, 0⟩]

/-- Claim C5: parsing the feedback line `+a -l -p -h -a` yields a model that
fixes position 0 to 'a' and, because `-` only excludes at non-fixed
positions, does not exclude 'a' at position 0; filtering the five-word
catalog leaves exactly "adieu" and "amber" — the second `-a` does not
eliminate words whose only 'a' sits at the fixed position 0. -/
theorem claim_C5_feedback_scenario :
    ∃ c, inputConstraints ("+a -l -p -h -a".toList) = some c ∧
      c.position 0 = 'a' ∧
      c.notPosition 0 'a' = false ∧
      (∀ j : Fin 5, (j : ℕ) ≠ 0 →
        c.notPosition j 'l' = true ∧ c.notPosition j 'p' = true ∧
        c.notPosition j 'h' = true ∧ c.notPosition j 'a' = true) ∧
      (filter c catC5).map (fun w => w.word)
        = [str5 "adieu", str5 "amber"] := by
  refine ⟨_, rfl, ?_, ?_, ?_, ?_⟩ <;> decide

/-! ## The suggestion pipeline: heuristic scorer, estimator, sorts -/

/-- `smallSetSize`: candidate pools at most this large get the full
expected-set-size computation. -/
def smallSetSize : ℕ := 500

/-- `topSetSize`: the shortlist size used when the pool is larger. -/
def topSetSize : ℕ := 20

/-- Go's `sort.Slice(x, less)` sorts so that no later element is `less` than
an earlier one; `sortRel less` is that comparator as a relation ("may come
no later than"). -/
def sortRel {α : Type} (less : α → α → Bool) (x y : α) : Prop :=
  less y x = false

instance {α : Type} (less : α → α → Bool) : DecidableRel (sortRel less) :=
  fun x y => by unfold sortRel; infer_instance

/-- `letterFreqByPosition`: for each position, how many catalog words hold
each byte there (the Go `[5][255]int` histogram as a counting function). -/
def letterFreqByPosition (words : List Word) : Fin 5 → ℕ → ℕ :=
  fun i b => (words.filter fun w => decide ((w.word i).toNat = b)).length

/-- The comparator of `letterScoreByPosition`'s sort: ascending byte
frequency at position `i`. -/
def lessByFreq (posFreq : Fin 5 → ℕ → ℕ) (i : Fin 5) (x y : ℕ) : Bool :=
  decide (posFreq i x < posFreq i y)

/-- `letterScoreByPosition`: rank of each byte `0..254` among the 255 bytes
sorted by ascending frequency at its position (the Go code sorts the order
array and assigns each byte its index). -/
def letterScoreByPosition (posFreq : Fin 5 → ℕ → ℕ) : Fin 5 → ℕ → ℕ :=
  fun i b =>
    ((List.range 255).insertionSort (sortRel (lessByFreq posFreq i))).indexOf b

/-- `score`: sum over the five positions of the letter's frequency rank. -/
def score (posScore : Fin 5 → ℕ → ℕ) (w : Fin 5 → Char) : ℕ :=
  (List.finRange 5).foldl (fun s i => s + posScore i (w i).toNat) 0

/-- The first phase of `sortWords`: recompute every word's heuristic score
from the current pool. -/
def scoreWords (words : List Word) : List Word :=
  let posScore := letterScoreByPosition (letterFreqByPosition words)
  words.map fun w => { w with score := score posScore w.word }

/-- The comparator of `sortWords`' first sort: ascending score, ties by
ascending frequency. -/
def goLess1 (a b : Word) : Bool :=
  if a.score = b.score then decide (a.freq < b.freq) else decide (a.score < b.score)

/-- The comparator of `sortWords`' second sort: descending expected set size,
ties by ascending frequency, then ascending score. -/
def goLess2 (a b : Word) : Bool :=
  if a.exp = b.exp then
    if a.freq = b.freq then decide (a.score < b.score) else decide (a.freq < b.freq)
  else decide (a.exp > b.exp)

/-- One iteration of `expectedNextSetSize`: diff the guess against the next
hypothetical answer on the cleared scratch model, count the surviving words,
and fold the count into the running (incremental) mean. -/
def expStep (words : List Word) (guess : Fin 5 → Char) (st : ℕ × ℚ)
    (w : Word) : ℕ × ℚ :=
  let c := applyDiffConstraint (clearConstraints newConstraints) guess w.word
  let n := (words.filter fun v => satisfies c v.word).length
  (st.1 + 1, st.2 + ((n : ℚ) - st.2) / ((st.1 : ℚ) + 1))

/-- `expectedNextSetSize`: the incremental mean, over all hypothetical
answers in the pool, of how many pool words would survive the feedback
(`float64` modelled as `ℚ`). -/
def expectedNextSetSize (words : List Word) (guess : Fin 5 → Char) : ℚ :=
  (words.foldl (expStep words guess) (0, 0)).2

/-- The shortlist size: `topSetSize` when the pool is larger than
`smallSetSize` (and than `topSetSize`), otherwise the whole pool. -/
def shortlistSize (n : ℕ) : ℕ :=
  if smallSetSize < n ∧ topSetSize < n then topSetSize else n

/-- The pool after `sortWords`' first sort (ascending score, ties by
frequency). -/
def sortedByScore (words : List Word) : List Word :=
  (scoreWords words).insertionSort (sortRel goLess1)

/-- The shortlist slice with `exp` filled in from `expectedNextSetSize`
against the whole (score-sorted) pool. -/
def annotatedTop (words : List Word) : List Word :=
  let sorted := sortedByScore words
  let n := shortlistSize sorted.length
  (sorted.drop (sorted.length - n)).map fun w =>
    { w with exp := expectedNextSetSize sorted w.word }

/-- The shortlist after `sortWords`' second sort. -/
def resortedShortlist (words : List Word) : List Word :=
  (annotatedTop words).insertionSort (sortRel goLess2)

/-- `sortWords`: score-sort the pool, then re-sort the top slice by expected
next-set size; the unsorted prefix keeps its score order.  The most
preferred word ends up last. -/
def sortWords (words : List Word) : List Word :=
  let sorted := sortedByScore words
  sorted.take (sorted.length - shortlistSize sorted.length) ++
    resortedShortlist words

/-- `suggest`: run `sortWords` and emit the final (at most) 20 entries plus
the candidate count. -/
def suggest (words : List Word) : List Word × ℕ :=
  let s := sortWords words
  let n := if 20 ≥ s.length then s.length else 20
  (s.drop (s.length - n), s.length)

/-- Claim C9: on an empty candidate pool the suggestion pass is safe — it
suggests no words and reports zero candidates (the estimator is never
invoked, so no division or indexing takes place; the embedding is total). -/
theorem claim_C9_empty_pool : sortWords [] = [] ∧ suggest [] = ([], 0) :=
  ⟨rfl, rfl⟩

/-! ## Claim C10: bounds on the expected next-set size -/

/-- Each hypothetical answer keeps at least itself in the surviving set, and
the survivor count never exceeds the pool size. -/
theorem expStep_count_bounds (words : List Word) (guess : Fin 5 → Char)
    (hg : ∀ i, lowerChar (guess i)) (w : Word) (hw : w ∈ words) :
    1 ≤ ((words.filter fun v =>
        satisfies (applyDiffConstraint (clearConstraints newConstraints)
          guess w.word) v.word).length : ℚ) ∧
    ((words.filter fun v =>
        satisfies (applyDiffConstraint (clearConstraints newConstraints)
          guess w.word) v.word).length : ℚ) ≤ (words.length : ℚ) := by
  constructor
  · have hmem : w ∈ words.filter fun v =>
        satisfies (applyDiffConstraint (clearConstraints newConstraints)
          guess w.word) v.word :=
      List.mem_filter.mpr ⟨hw, satisfies_diff_self guess w.word hg⟩
    have hpos : 0 < (words.filter fun v =>
        satisfies (applyDiffConstraint (clearConstraints newConstraints)
          guess w.word) v.word).length :=
      List.length_pos.mpr (List.ne_nil_of_mem hmem)
    exact_mod_cast hpos
  · exact_mod_cast List.length_filter_le _ words

/-- Folding `expStep` keeps the running mean inside `[1, M]` as long as
every count folded in lies inside `[1, M]`. -/
theorem foldl_expStep_bounds (words : List Word) (guess : Fin 5 → Char)
    (M : ℚ)
    (hcnt : ∀ w ∈ words,
      1 ≤ ((words.filter fun v =>
          satisfies (applyDiffConstraint (clearConstraints newConstraints)
            guess w.word) v.word).length : ℚ) ∧
      ((words.filter fun v =>
          satisfies (applyDiffConstraint (clearConstraints newConstraints)
            guess w.word) v.word).length : ℚ) ≤ M) :
    ∀ (L : List Word), (∀ w ∈ L, w ∈ words) → ∀ (i : ℕ) (avg : ℚ),
      1 ≤ avg → avg ≤ M →
      1 ≤ (L.foldl (expStep words guess) (i, avg)).2 ∧
      (L.foldl (expStep words guess) (i, avg)).2 ≤ M := by
  intro L
  induction L with
  | nil => intro _ i avg h1 h2; exact ⟨h1, h2⟩
  | cons w L ih =>
      intro hL i avg h1 h2
      rw [List.foldl_cons]
      rcases hcnt w (hL w (List.mem_cons_self w L)) with ⟨hn1, hn2⟩
      set n : ℚ := ((words.filter fun v =>
        satisfies (applyDiffConstraint (clearConstraints newConstraints)
          guess w.word) v.word).length : ℚ)
      have hstep : expStep words guess (i, avg) w
          = (i + 1, avg + (n - avg) / ((i : ℚ) + 1)) := rfl
      rw [hstep]
      have hk : (0 : ℚ) < (i : ℚ) + 1 := by positivity
      have hk1 : (1 : ℚ) ≤ (i : ℚ) + 1 := by
        have : (0 : ℚ) ≤ (i : ℚ) := Nat.cast_nonneg i
        linarith
      have hlow : 1 ≤ avg + (n - avg) / ((i : ℚ) + 1) := by
        have heq : avg + (n - avg) / ((i : ℚ) + 1) - 1
            = ((avg - 1) * ((i : ℚ) + 1 - 1) + (n - 1)) / ((i : ℚ) + 1) := by
          field_simp
          ring
        nlinarith [div_nonneg
          (by nlinarith : (0 : ℚ) ≤ (avg - 1) * ((i : ℚ) + 1 - 1) + (n - 1))
          (le_of_lt hk)]
      have hhigh : avg + (n - avg) / ((i : ℚ) + 1) ≤ M := by
        have heq : M - (avg + (n - avg) / ((i : ℚ) + 1))
            = ((M - avg) * ((i : ℚ) + 1 - 1) + (M - n)) / ((i : ℚ) + 1) := by
          field_simp
          ring
        nlinarith [div_nonneg
          (by nlinarith : (0 : ℚ) ≤ (M - avg) * ((i : ℚ) + 1 - 1) + (M - n))
          (le_of_lt hk)]
      exact ih (fun v hv => hL v (List.mem_cons_of_mem w hv)) (i + 1)
        (avg + (n - avg) / ((i : ℚ) + 1)) hlow hhigh

/-- Claim C10: for every non-empty catalog of five-lowercase-letter words and
every five-lowercase-letter guess, `expectedNextSetSize` lies between 1 and
the catalog size — every hypothetical answer survives its own feedback, so
each per-hypothesis count is in `[1, |words|]`, and so is the incrementally
computed mean; the estimator never predicts an empty next candidate set. -/
theorem claim_C10_estimator_bounds (words : List Word) (guess : Fin 5 → Char)
    (hne : words ≠ [])
    (_hws : ∀ w ∈ words, ∀ i, lowerChar (w.word i))
    (hg : ∀ i, lowerChar (guess i)) :
    1 ≤ expectedNextSetSize words guess ∧
    expectedNextSetSize words guess ≤ (words.length : ℚ) := by
  have hcnt := fun w hw => expStep_count_bounds words guess hg w hw
  match words, hne with
  | w :: rest, _ =>
      unfold expectedNextSetSize
      rw [List.foldl_cons]
      rcases hcnt w (List.mem_cons_self w rest) with ⟨hn1, hn2⟩
      set n : ℚ := (((w :: rest).filter fun v =>
        satisfies (applyDiffConstraint (clearConstraints newConstraints)
          guess w.word) v.word).length : ℚ)
      have hstep : expStep (w :: rest) guess (0, 0) w
          = (1, 0 + (n - 0) / (((0 : ℕ) : ℚ) + 1)) := rfl
      rw [hstep]
      have hn : 0 + (n - 0) / (((0 : ℕ) : ℚ) + 1) = n := by
        push_cast
        ring
      rw [hn]
      exact foldl_expStep_bounds (w :: rest) guess ((w :: rest).length : ℚ)
        hcnt rest (fun v hv => List.mem_cons_of_mem w hv) 1 n hn1 hn2

/-- Witness for claim C10 at a concrete input: on the two-word catalog
["slate", "house"] with guess "crane", the estimate lies between 1 and 2. -/
theorem claim_C10_estimator_bounds_witness :
    1 ≤ expectedNextSetSize
        [⟨str5 "slate", 1, 0, 0⟩, ⟨str5 "house", 2, 0, 0⟩] (str5 "crane") ∧
    expectedNextSetSize
        [⟨str5 "slate", 1, 0, 0⟩, ⟨str5 "house", 2, 0, 0⟩] (str5 "crane")
      ≤ (([⟨str5 "slate", 1, 0, 0⟩, ⟨str5 "house", 2, 0, 0⟩] : List Word).length : ℚ) :=
  claim_C10_estimator_bounds _ _ (by simp) (by decide) (by decide)

/-! ## Claim C7: ordering of the re-sorted shortlist -/

/-- The re-sort comparator as a total preorder: `x` may precede `y` iff `x`
has strictly larger expected set size, or they tie and `x` is rarer, or both
tie and `x` has the smaller-or-equal score. -/
theorem sortRel_goLess2_iff (x y : Word) :
    sortRel goLess2 x y ↔
      y.exp < x.exp ∨ (y.exp = x.exp ∧
        (x.freq < y.freq ∨ (x.freq = y.freq ∧ x.score ≤ y.score))) := by
  unfold sortRel goLess2
  by_cases h1 : y.exp = x.exp
  · rw [if_pos h1]
    by_cases h2 : y.freq = x.freq
    · rw [if_pos h2, decide_eq_false_iff_not, not_lt]
      constructor
      · intro h
        exact Or.inr ⟨h1, Or.inr ⟨h2.symm, h⟩⟩
      · rintro (h | ⟨-, (hf | ⟨-, hs⟩)⟩)
        · rw [h1] at h
          exact absurd h (lt_irrefl _)
        · rw [h2] at hf
          exact absurd hf (lt_irrefl _)
        · exact hs
    · rw [if_neg h2, decide_eq_false_iff_not, not_lt]
      constructor
      · intro h
        exact Or.inr ⟨h1, Or.inl (lt_of_le_of_ne h (fun he => h2 he.symm))⟩
      · rintro (h | ⟨-, (hf | ⟨hf, -⟩)⟩)
        · rw [h1] at h
          exact absurd h (lt_irrefl _)
        · exact le_of_lt hf
        · exact absurd hf.symm h2
  · rw [if_neg h1, decide_eq_false_iff_not, gt_iff_lt, not_lt]
    constructor
    · intro h
      exact Or.inl (lt_of_le_of_ne h h1)
    · rintro (h | ⟨he, -⟩)
      · exact le_of_lt h
      · exact absurd he h1

instance : IsTotal Word (sortRel goLess2) where
  total x y := by
    rw [sortRel_goLess2_iff, sortRel_goLess2_iff]
    rcases lt_trichotomy x.exp y.exp with h | h | h
    · exact Or.inr (Or.inl h)
    · rcases lt_trichotomy x.freq y.freq with hf | hf | hf
      · exact Or.inl (Or.inr ⟨h.symm, Or.inl hf⟩)
      · rcases le_total x.score y.score with hs | hs
        · exact Or.inl (Or.inr ⟨h.symm, Or.inr ⟨hf, hs⟩⟩)
        · exact Or.inr (Or.inr ⟨h, Or.inr ⟨hf.symm, hs⟩⟩)
      · exact Or.inr (Or.inr ⟨h, Or.inl hf⟩)
    · exact Or.inl (Or.inl h)

instance : IsTrans Word (sortRel goLess2) where
  trans x y z hxy hyz := by
    rw [sortRel_goLess2_iff] at hxy hyz ⊢
    rcases hxy with h1 | ⟨h1e, h1r⟩
    · rcases hyz with h2 | ⟨h2e, -⟩
      · exact Or.inl (lt_trans h2 h1)
      · exact Or.inl (by rw [h2e]; exact h1)
    · rcases hyz with h2 | ⟨h2e, h2r⟩
      · exact Or.inl (by rw [← h1e]; exact h2)
      · refine Or.inr ⟨h2e.trans h1e, ?_⟩
        rcases h1r with hf1 | ⟨hf1, hs1⟩
        · rcases h2r with hf2 | ⟨hf2, -⟩
          · exact Or.inl (lt_trans hf1 hf2)
          · exact Or.inl (by rw [← hf2]; exact hf1)
        · rcases h2r with hf2 | ⟨hf2, hs2⟩
          · exact Or.inl (by rw [hf1]; exact hf2)
          · exact Or.inr ⟨hf1.trans hf2, le_trans hs1 hs2⟩

/-- The shortlist never exceeds the pool. -/
theorem shortlistSize_le (n : ℕ) : shortlistSize n ≤ n := by
  unfold shortlistSize
  split
  · rename_i h
    unfold topSetSize
    unfold smallSetSize topSetSize at h
    omega
  · exact le_refl n

/-- The first sort preserves the pool size. -/
theorem length_sortedByScore (ws : List Word) :
    (sortedByScore ws).length = ws.length := by
  unfold sortedByScore scoreWords
  rw [List.length_insertionSort, List.length_map]

/-- The annotated shortlist has exactly the shortlist size. -/
theorem length_annotatedTop (ws : List Word) :
    (annotatedTop ws).length = shortlistSize (sortedByScore ws).length := by
  unfold annotatedTop
  rw [List.length_map, List.length_drop]
  have := shortlistSize_le (sortedByScore ws).length
  omega

/-- `sortWords` preserves the pool size. -/
theorem length_sortWords (ws : List Word) :
    (sortWords ws).length = ws.length := by
  unfold sortWords resortedShortlist
  rw [List.length_append, List.length_take, List.length_insertionSort,
    length_annotatedTop]
  have h1 := shortlistSize_le (sortedByScore ws).length
  have h2 := length_sortedByScore ws
  omega

/-- Claim C7 as amended: after `sortWords`, the shortlist for which
`expectedRemaining` was computed is sorted by the code's comparator —
descending expected set size toward the front, so the most preferred word
(fewest expected remaining) sits last, with ties broken toward the
more-frequent and then higher-score word at the preferred end (equivalently:
ascending frequency then ascending score within equal estimates, front to
back) — and `suggest` emits at most the final 20 entries of this re-sorted
pool plus the total candidate count. -/
theorem claim_C7_amended_resort_order (ws : List Word) :
    List.Sorted (sortRel goLess2) (resortedShortlist ws) ∧
    List.Pairwise (fun x y => y.exp < x.exp ∨ (y.exp = x.exp ∧
        (x.freq < y.freq ∨ (x.freq = y.freq ∧ x.score ≤ y.score))))
      (resortedShortlist ws) ∧
    sortWords ws
      = (sortedByScore ws).take
          ((sortedByScore ws).length - shortlistSize (sortedByScore ws).length)
        ++ resortedShortlist ws ∧
    (resortedShortlist ws).length = shortlistSize ws.length ∧
    (suggest ws).1 = (sortWords ws).drop
        ((sortWords ws).length -
          if 20 ≥ (sortWords ws).length then (sortWords ws).length else 20) ∧
    (suggest ws).1.length ≤ 20 ∧
    (suggest ws).2 = ws.length := by
  have hsorted : List.Sorted (sortRel goLess2) (resortedShortlist ws) :=
    List.sorted_insertionSort (sortRel goLess2) (annotatedTop ws)
  refine ⟨hsorted, ?_, rfl, ?_, rfl, ?_, ?_⟩
  · exact hsorted.imp fun h => (sortRel_goLess2_iff _ _).mp h
  · unfold resortedShortlist
    rw [List.length_insertionSort, length_annotatedTop, length_sortedByScore]
  · show ((sortWords ws).drop _).length ≤ 20
    rw [List.length_drop]
    split
    · omega
    · omega
  · show (sortWords ws).length = ws.length
    exact length_sortWords ws

/-- Sorting a two-element list orders it by the comparator. -/
theorem insertionSort_pair {α : Type} (r : α → α → Prop) [DecidableRel r]
    (x y : α) :
    List.insertionSort r [x, y] = if r x y then [x, y] else [y, x] := by
  simp [List.insertionSort, List.orderedInsert]

/-- The two-word catalog exhibiting the re-sort tie-break: equal expected
set sizes (both 1), different frequencies. -/
def cexCat : List Word :=
  [⟨str5 "abcde", 1, 0, 0⟩, ⟨str5 "abcdf", 2, 0, 0⟩]

/-- The heuristic score of a word over `cexCat`'s rank tables. -/
def cexScore (w : Fin 5 → Char) : ℕ :=
  score (letterScoreByPosition (letterFreqByPosition cexCat)) w

/-- "abcde" as scored by the first phase of `sortWords` over `cexCat`. -/
def cexA : Word := ⟨str5 "abcde", 1, cexScore (str5 "abcde"), 0⟩

/-- "abcdf" as scored by the first phase of `sortWords` over `cexCat`. -/
def cexB : Word := ⟨str5 "abcdf", 2, cexScore (str5 "abcdf"), 0⟩

/-- Over the two-word pool, every guess is expected to leave exactly one
candidate: each hypothetical answer's feedback eliminates the other word. -/
theorem cexExp (u v : Word) (hu : u.word = str5 "abcde")
    (hv : v.word = str5 "abcdf") :
    expectedNextSetSize [u, v] (str5 "abcde") = 1 ∧
    expectedNextSetSize [u, v] (str5 "abcdf") = 1 ∧
    expectedNextSetSize [v, u] (str5 "abcde") = 1 ∧
    expectedNextSetSize [v, u] (str5 "abcdf") = 1 := by
  have s11 : satisfies (applyDiffConstraint (clearConstraints newConstraints)
      (str5 "abcde") (str5 "abcde")) (str5 "abcde") = true := by decide
  have s12 : satisfies (applyDiffConstraint (clearConstraints newConstraints)
      (str5 "abcde") (str5 "abcde")) (str5 "abcdf") = false := by decide
  have s21 : satisfies (applyDiffConstraint (clearConstraints newConstraints)
      (str5 "abcde") (str5 "abcdf")) (str5 "abcde") = false := by decide
  have s22 : satisfies (applyDiffConstraint (clearConstraints newConstraints)
      (str5 "abcde") (str5 "abcdf")) (str5 "abcdf") = true := by decide
  have t11 : satisfies (applyDiffConstraint (clearConstraints newConstraints)
      (str5 "abcdf") (str5 "abcde")) (str5 "abcde") = true := by decide
  have t12 : satisfies (applyDiffConstraint (clearConstraints newConstraints)
      (str5 "abcdf") (str5 "abcde")) (str5 "abcdf") = false := by decide
  have t21 : satisfies (applyDiffConstraint (clearConstraints newConstraints)
      (str5 "abcdf") (str5 "abcdf")) (str5 "abcde") = false := by decide
  have t22 : satisfies (applyDiffConstraint (clearConstraints newConstraints)
      (str5 "abcdf") (str5 "abcdf")) (str5 "abcdf") = true := by decide
  refine ⟨?_, ?_, ?_, ?_⟩ <;>
  · simp only [expectedNextSetSize, expStep, List.foldl_cons, List.foldl_nil,
      hu, hv, List.filter_cons, List.filter_nil, s11, s12, s21, s22,
      t11, t12, t21, t22, if_true, if_false, List.length_cons, List.length_nil]
    norm_num

/-- The re-sorted shortlist over `cexCat`: both words carry expected set
size 1, and the sort places the rarer word first, the more frequent word
last (at the preferred end). -/
theorem cex_shortlist :
    ∃ s1 s2 : ℕ,
      resortedShortlist cexCat
        = [⟨str5 "abcde", 1, s1, 1⟩, ⟨str5 "abcdf", 2, s2, 1⟩] := by
  refine ⟨cexScore (str5 "abcde"), cexScore (str5 "abcdf"), ?_⟩
  have hAw : cexA.word = str5 "abcde" := rfl
  have hBw : cexB.word = str5 "abcdf" := rfl
  have hpair : sortedByScore cexCat
      = if sortRel goLess1 cexA cexB then [cexA, cexB] else [cexB, cexA] := by
    show List.insertionSort (sortRel goLess1) (scoreWords cexCat) = _
    have hsw : scoreWords cexCat = [cexA, cexB] := rfl
    rw [hsw, insertionSort_pair]
  by_cases hc : sortRel goLess1 cexA cexB
  · rw [if_pos hc] at hpair
    have hexp := cexExp cexA cexB hAw hBw
    unfold resortedShortlist annotatedTop
    rw [hpair]
    dsimp only
    have hlen : ([cexA, cexB] : List Word).length = 2 := rfl
    have hss : shortlistSize 2 = 2 := rfl
    rw [hlen, hss, Nat.sub_self, List.drop_zero]
    simp only [List.map_cons, List.map_nil, hAw, hBw]
    rw [hexp.1, hexp.2.1, insertionSort_pair]
    rw [if_pos (by
      unfold sortRel goLess2
      norm_num [cexA, cexB])]
    rfl
  · rw [if_neg hc] at hpair
    have hexp := cexExp cexA cexB hAw hBw
    unfold resortedShortlist annotatedTop
    rw [hpair]
    dsimp only
    have hlen : ([cexB, cexA] : List Word).length = 2 := rfl
    have hss : shortlistSize 2 = 2 := rfl
    rw [hlen, hss, Nat.sub_self, List.drop_zero]
    simp only [List.map_cons, List.map_nil, hAw, hBw]
    rw [hexp.2.2.1, hexp.2.2.2, insertionSort_pair]
    rw [if_neg (by
      unfold sortRel goLess2
      norm_num [cexA, cexB])]
    rfl

/-- Modelled from the claim: the asserted shortlist ordering — reading
toward the preferred (last) end, expected set size descends, and within
equal estimates the later (more preferred) word is the rarer one, then the
lower-score one. -/
def claimedOrder (x y : Word) : Prop :=
  y.exp < x.exp ∨ (y.exp = x.exp ∧
    (y.freq < x.freq ∨ (y.freq = x.freq ∧ y.score ≤ x.score)))

/-- Counterexample to claim C7: on the catalog ["abcde" (freq 1),
"abcdf" (freq 2)] both words tie at expected set size 1, and `sortWords`
places the MORE frequent word at the preferred (last) end — the tie is
broken toward more-frequent, not rarer, words, so the claimed ordering does
not hold. -/
theorem claim_C7_counterexample :
    ¬ List.Sorted claimedOrder (resortedShortlist cexCat) := by
  rcases cex_shortlist with ⟨s1, s2, h⟩
  rw [h]
  intro hs
  rcases List.sorted_cons.mp hs with ⟨h1, -⟩
  have hco := h1 _ (List.mem_cons_self _ _)
  unfold claimedOrder at hco
  norm_num at hco
